import Mathlib

/-!
Verification of the redig in-memory key-value store.

The store (`src/store/store.go`, expiry-aware revision) keeps two Go maps:
`store : map[string]string` (values) and `expiries : map[string]time.Time`.
We model a Go map as an association list with lookup / insert / erase, a
`time.Time` instant as an `Int` count of nanoseconds, and every operation
that consults `time.Now()` takes the current instant `now` as a parameter
(all `time.Now()` calls inside one operation observe the same instant).
The 64-bit signed Go arithmetic on `time.Duration` wraps, modelled by
`wrap64`; `time.Time.Sub` saturates, modelled by `clamp64`; the `float64`
result of `Duration.Seconds()` consumed by `TTL` is modelled bit-exactly by
`goSeconds`, which performs IEEE-754 binary64 round-to-nearest-even on exact
dyadic rationals represented by integer mantissa-exponent pairs.
-/

namespace Redig

/-- Lookup in an association-list model of a Go map. -/
def lookupA {α : Type} : List (String × α) → String → Option α
  | [], _ => none
  | (k, v) :: rest, key => if k = key then some v else lookupA rest key

/-- Insert/replace in an association-list model of a Go map. -/
def insertA {α : Type} : List (String × α) → String → α → List (String × α)
  | [], key, value => [(key, value)]
  | (k, v) :: rest, key, value =>
    if k = key then (key, value) :: rest else (k, v) :: insertA rest key value

/-- Delete in an association-list model of a Go map. -/
def eraseA {α : Type} : List (String × α) → String → List (String × α)
  | [], _ => []
  | (k, v) :: rest, key => if k = key then eraseA rest key else (k, v) :: eraseA rest key

/-- The two maps of `KVStore` (`store.go`): `store` holds the values,
`expiries` the absolute expiration instants in nanoseconds. -/
structure KVStore where
  store : List (String × String)
  expiries : List (String × Int)
deriving Repr, DecidableEq

/-- Nanoseconds per second (`time.Second` as a `time.Duration`). -/
def nsPerSec : Int := 1000000000

/-- Smallest Go `int64`. -/
def int64Min : Int := -(2 ^ 63)

/-- Largest Go `int64`. -/
def int64Max : Int := 2 ^ 63 - 1

/-- Wraparound of 64-bit signed (two-complement) Go arithmetic. -/
def wrap64 (z : Int) : Int := (z + 2 ^ 63) % 2 ^ 64 - 2 ^ 63

/-- Saturation of `time.Time.Sub` at the `time.Duration` bounds. -/
def clamp64 (z : Int) : Int := max int64Min (min int64Max z)

/-- Round the fraction `a / b` (for `b > 0`) to the nearest integer, ties to
the even integer, as IEEE-754 round-to-nearest-even does for a mantissa. -/
def rneFrac (a b : Int) : Int :=
  let n := a.fdiv b
  let r := a - n * b
  if 2 * r < b then n
  else if b < 2 * r then n + 1
  else if n % 2 = 0 then n else n + 1

/-- Fuel-driven base-2 integer logarithm: for `1 ≤ n < 2 ^ fuel` it returns
the `z` with `2 ^ z ≤ n < 2 ^ (z + 1)`. -/
def ilog2Nat : Nat → Nat → Nat
  | 0, _ => 0
  | fuel + 1, n => if n ≤ 1 then 0 else ilog2Nat fuel (n / 2) + 1

/-- Binade of a positive fraction `a / b`: the `z` with
`2 ^ z ≤ a / b < 2 ^ (z + 1)`.  The fuel argument of `ilog2Nat` is the number
itself, always sufficient since `n < 2 ^ n`. -/
def ilogFrac (a b : Nat) : Int :=
  if b ≤ a then (ilog2Nat (a / b) (a / b) : Int)
  else
    let w := ilog2Nat (b / a) (b / a)
    if b ≤ a * 2 ^ w then -(w : Int) else -(w : Int) - 1

/-- Mantissa and exponent (value `m · 2 ^ k`) of the IEEE-754 binary64 value
nearest to the positive fraction `a / b`: 53 significant bits, round to
nearest, ties to even. -/
def flPosDyadic (a b : Nat) : Int × Int :=
  let e := ilogFrac a b
  if e ≤ 52 then (rneFrac ((a : Int) * 2 ^ (52 - e).toNat) (b : Int), e - 52)
  else (rneFrac (a : Int) ((b : Int) * 2 ^ (e - 52).toNat), e - 52)

/-- The IEEE-754 binary64 value nearest to `a / b` (for `b > 0`) as an exact
dyadic `m · 2 ^ k`; zero and negative inputs by sign symmetry, as IEEE
round-to-nearest is symmetric. -/
def flDyadic (a b : Int) : Int × Int :=
  if a = 0 then (0, 0)
  else if a < 0 then
    let r := flPosDyadic (-a).toNat b.toNat
    (-r.1, r.2)
  else flPosDyadic a.toNat b.toNat

/-- Model of `Duration.Seconds()` (Go time package) on `d` nanoseconds, as an
exact dyadic `m · 2 ^ k`: Go computes `float64(sec) + float64(nsec)/1e9`,
where `sec := d / 1e9` and `nsec := d % 1e9` (truncated division), the two
`float64` conversions are exact (`|sec| ≤ 2^63/1e9 < 2^53` after clamping and
`|nsec| < 1e9 < 2^53`), and the division and the addition each round to
nearest. -/
def goSeconds (d : Int) : Int × Int :=
  let sec := Int.tdiv d 1000000000
  let x := flDyadic (Int.tmod d 1000000000) 1000000000
  let y := if 0 ≤ x.2 then (sec + x.1 * 2 ^ x.2.toNat, (0 : Int))
           else (sec * 2 ^ (-x.2).toNat + x.1, x.2)
  if 0 ≤ y.2 then flDyadic (y.1 * 2 ^ y.2.toNat) 1
  else flDyadic y.1 (2 ^ (-y.2).toNat)

/-- Truncation toward zero (the Go `int(x)` conversion) of a dyadic value;
`TTL` applies it only to positive values, where it coincides with the floor. -/
def truncDyadic (p : Int × Int) : Int :=
  if 0 ≤ p.2 then p.1 * 2 ^ p.2.toNat else p.1.fdiv (2 ^ (-p.2).toNat)

/-- The rational value `m · 2 ^ k` of a dyadic pair, used to reason about the
binary64 model. -/
def dyQ (p : Int × Int) : ℚ := (p.1 : ℚ) * (2 : ℚ) ^ p.2

/-- Accumulator loop of base-10 digit parsing in `strconv.Atoi`. -/
def parseDigitsAux : Nat → List Char → Option Nat
  | acc, [] => some acc
  | acc, c :: cs =>
    if c.isDigit then parseDigitsAux (acc * 10 + (c.toNat - 48)) cs else none

/-- Digits (with sign already stripped) to a Go `int`, failing on an empty
digit string or on a value outside the `int64` range, as `strconv.Atoi` does. -/
def parseSigned : Bool → List Char → Option Int
  | _, [] => none
  | neg, cs =>
    match parseDigitsAux 0 cs with
    | none => none
    | some n =>
      let v : Int := if neg then -(n : Int) else (n : Int)
      if int64Min ≤ v ∧ v ≤ int64Max then some v else none

/-- Model of `strconv.Atoi`: optional sign, then base-10 digits; `none` models the error. -/
def atoi (s : String) : Option Int :=
  match s.toList with
  | '+' :: cs => parseSigned false cs
  | '-' :: cs => parseSigned true cs
  | cs => parseSigned false cs

/-- Model of `strconv.Itoa`: decimal rendering of a Go `int`. -/
def itoa (i : Int) : String := toString i

/-- Embedding of `checkAndRemoveIfExpired` (`store.go`): if the key has a recorded expiry
strictly before `now`, delete it from both maps and report `true`; otherwise
leave the store alone and report `false`.  (The Go double-check after
re-locking observes the same instant in this sequential model, so it
collapses to a single check.) -/
def checkAndRemoveIfExpired (s : KVStore) (now : Int) (key : String) : KVStore × Bool :=
  match lookupA s.expiries key with
  | none => (s, false)
  | some expiry =>
    if expiry < now then (⟨eraseA s.store key, eraseA s.expiries key⟩, true)
    else (s, false)

/-- Embedding of `Set` (`store.go`): unconditionally install the value; `expiries` untouched. -/
def Set (s : KVStore) (key value : String) : KVStore :=
  { s with store := insertA s.store key value }

/-- Embedding of `Get` (`store.go`): lazy expiration check first, then map lookup; a Go map
read of an absent key yields the zero value `""` and `exists = false`. -/
def Get (s : KVStore) (now : Int) (key : String) : KVStore × String × Bool :=
  let res := checkAndRemoveIfExpired s now key
  if res.2 then (res.1, "", false)
  else
    match lookupA res.1.store key with
    | some v => (res.1, v, true)
    | none => (res.1, "", false)

/-- Embedding of `Add` (`store.go`): lazy expiration check, read the current value
(default `"0"`), parse, add the delta with 64-bit wraparound, store the
decimal text back; `none` models the non-nil parse error return. -/
def Add (s : KVStore) (now : Int) (key : String) (x : Int) : KVStore × Option Int :=
  let s1 := (checkAndRemoveIfExpired s now key).1
  let value :=
    match lookupA s1.store key with
    | some v => v
    | none => "0"
  match atoi value with
  | none => (s1, none)
  | some i =>
    let j := wrap64 (i + x)
    ({ s1 with store := insertA s1.store key (itoa j) }, some j)

/-- Embedding of `Incr` (`store.go`): `Add` with delta `1`. -/
def Incr (s : KVStore) (now : Int) (key : String) : KVStore × Option Int :=
  Add s now key 1

/-- Embedding of `Decr` (`store.go`): `Add` with delta `-1`. -/
def Decr (s : KVStore) (now : Int) (key : String) : KVStore × Option Int :=
  Add s now key (-1)

/-- Embedding of `Keys` (`store.go`): collect the keys of the value map, then keep those
with no recorded expiry or an expiry not strictly before `now`.  The Go code
only reads; the store component of the result is the unchanged input state. -/
def Keys (s : KVStore) (now : Int) : KVStore × List String :=
  (s, (s.store.map Prod.fst).filter fun key =>
    match lookupA s.expiries key with
    | none => true
    | some expiry => !(decide (expiry < now)))

/-- Embedding of `Expire` (`store.go`): `false` if the key is not in the value map; if its
recorded expiry is already past, delete it from both maps and return `false`;
otherwise set the expiry to `now + ttl` seconds (the Go
`time.Duration(ttl) * time.Second` product wraps at 64 bits) and return `true`. -/
def Expire (s : KVStore) (now : Int) (key : String) (ttl : Int) : KVStore × Bool :=
  match lookupA s.store key with
  | none => (s, false)
  | some _ =>
    match lookupA s.expiries key with
    | some expiry =>
      if expiry < now then (⟨eraseA s.store key, eraseA s.expiries key⟩, false)
      else ({ s with expiries := insertA s.expiries key (now + wrap64 (ttl * nsPerSec)) }, true)
    | none => ({ s with expiries := insertA s.expiries key (now + wrap64 (ttl * nsPerSec)) }, true)

/-- Embedding of `TTL` (`store.go`): `-2` when the key is not in the value map, `-1` when it
has no recorded expiry; otherwise Go computes
`remaining := time.Until(expiry).Seconds()` (the saturating nanosecond
difference passed through the `float64` conversion modelled by `goSeconds`)
and `ttl := int(remaining)`, then returns `-2` when `remaining <= 0` and
`ttl` otherwise.  The sign test on the dyadic is the sign of its mantissa,
and `int(x)` truncates toward zero, which on the positive branch is the
floor `truncDyadic`. -/
def TTL (s : KVStore) (now : Int) (key : String) : Int :=
  match lookupA s.store key with
  | none => -2
  | some _ =>
    match lookupA s.expiries key with
    | none => -1
    | some expiry =>
      let remaining := goSeconds (clamp64 (expiry - now))
      if remaining.1 ≤ 0 then -2 else truncDyadic remaining

/-- Embedding of `Persist` (`store.go`): `false` when the key is absent from the value map
or has no expiry; when the recorded expiry is already past, delete the key
from both maps and return `false`; otherwise drop the expiry and return `true`. -/
def Persist (s : KVStore) (now : Int) (key : String) : KVStore × Bool :=
  match lookupA s.store key with
  | none => (s, false)
  | some _ =>
    match lookupA s.expiries key with
    | none => (s, false)
    | some expiry =>
      if expiry < now then (⟨eraseA s.store key, eraseA s.expiries key⟩, false)
      else ({ s with expiries := eraseA s.expiries key }, true)

/-- The CRLF line terminator of the wire protocol. -/
def crlf : String := "\r\n"

/-- Embedding of `BulkString.ToString` (`resp.go`): `$-1` CRLF for the empty value,
otherwise `$`, the byte length, CRLF, the value, CRLF (Go `len` on a string
counts bytes, i.e. the UTF-8 size). -/
def bulkStringToString (value : String) : String :=
  if value = "" then "$-1" ++ crlf
  else "$" ++ toString value.utf8ByteSize ++ crlf ++ value ++ crlf

/-- Reply of the GET handler (`HandleGetCommand`, `handlers.go`): fetch the
value, blank it out when the key does not exist, and bulk-encode the result. -/
def handleGetReply (s : KVStore) (now : Int) (key : String) : String :=
  let r := Get s now key
  bulkStringToString (if r.2.2 then r.2.1 else "")

/-- The key has a recorded expiry strictly before `now`. -/
def hasPastExpiry (s : KVStore) (now : Int) (key : String) : Bool :=
  match lookupA s.expiries key with
  | none => false
  | some expiry => decide (expiry < now)

/-- Logical presence (spec §3, I2): in the value map, and any recorded expiry
is not yet past. -/
def logicallyPresent (s : KVStore) (now : Int) (key : String) : Bool :=
  (lookupA s.store key).isSome && !hasPastExpiry s now key

/-- The store after `n` sequential `Incr` calls on `key`, all at instant `now`. -/
def incrIterState (s : KVStore) (now : Int) (key : String) : Nat → KVStore
  | 0 => s
  | n + 1 => (Incr (incrIterState s now key n) now key).1

/-! ### Map lemmas -/

theorem lookupA_insertA_self {α : Type} (m : List (String × α)) (k : String) (v : α) :
    lookupA (insertA m k v) k = some v := by
  induction m with
  | nil => simp [insertA, lookupA]
  | cons hd tl ih =>
    obtain ⟨k', v'⟩ := hd
    by_cases h : k' = k
    · simp [insertA, h, lookupA]
    · simp [insertA, h, lookupA, ih]

theorem lookupA_eraseA_self {α : Type} (m : List (String × α)) (k : String) :
    lookupA (eraseA m k) k = none := by
  induction m with
  | nil => simp [eraseA, lookupA]
  | cons hd tl ih =>
    obtain ⟨k', v'⟩ := hd
    by_cases h : k' = k
    · simp [eraseA, h, ih]
    · simp [eraseA, h, lookupA, ih]

theorem mem_map_fst_iff_lookupA {α : Type} (m : List (String × α)) (k : String) :
    k ∈ m.map Prod.fst ↔ (lookupA m k).isSome := by
  induction m with
  | nil => simp [lookupA]
  | cons hd tl ih =>
    obtain ⟨k', v'⟩ := hd
    by_cases h : k' = k
    · simp [lookupA, h]
    · have h' : ¬ k = k' := fun hh => h hh.symm
      simp [lookupA, h, h', ih]

/-! ### Rounding lemmas for the binary64 model -/

theorem rneFrac_cases (a b : Int) :
    rneFrac a b = a.fdiv b ∨ rneFrac a b = a.fdiv b + 1 := by
  simp only [rneFrac]
  split_ifs <;> simp

/-- The rounded numerator is within half a denominator of the true one:
`|a - rneFrac a b * b| * 2 ≤ b`. -/
theorem rneFrac_err (a b : Int) (hb : 0 < b) :
    2 * (a - rneFrac a b * b) ≤ b ∧ 2 * (rneFrac a b * b - a) ≤ b := by
  simp only [rneFrac]
  set n := a.fdiv b with hn
  obtain ⟨r, hr, h0, h1⟩ : ∃ r, a = n * b + r ∧ 0 ≤ r ∧ r < b :=
    ⟨a.fmod b, by rw [hn, Int.mul_comm]; exact (Int.fdiv_add_fmod a b).symm,
      Int.fmod_nonneg' a hb, Int.fmod_lt_of_pos a hb⟩
  have k1 : a - n * b = r := by rw [hr]; ring
  have k2 : a - (n + 1) * b = r - b := by rw [hr]; ring
  have k3 : n * b - a = -r := by rw [hr]; ring
  have k4 : (n + 1) * b - a = b - r := by rw [hr]; ring
  split_ifs with hc1 hc2 hc3
  · rw [k1] at hc1
    exact ⟨by rw [k1]; omega, by rw [k3]; omega⟩
  · rw [k1] at hc1 hc2
    exact ⟨by rw [k2]; omega, by rw [k4]; omega⟩
  · rw [k1] at hc1 hc2
    exact ⟨by rw [k1]; omega, by rw [k3]; omega⟩
  · rw [k1] at hc1 hc2
    exact ⟨by rw [k2]; omega, by rw [k4]; omega⟩

theorem rneFrac_ge_int (a b c : Int) (hb : 0 < b) (h : c * b ≤ a) : c ≤ rneFrac a b := by
  have hn : c ≤ a.fdiv b := by
    rw [Int.fdiv_eq_ediv _ hb.le]
    exact (Int.le_ediv_iff_mul_le hb).mpr h
  rcases rneFrac_cases a b with hx | hx <;> omega

theorem rneFrac_le_int (a b c : Int) (hb : 0 < b) (h : a ≤ c * b) : rneFrac a b ≤ c := by
  have hnc : a.fdiv b ≤ c := by
    rw [Int.fdiv_eq_ediv _ hb.le]
    calc a / b ≤ c * b / b := Int.ediv_le_ediv hb h
    _ = c := Int.mul_ediv_cancel c (by omega)
  rcases eq_or_lt_of_le hnc with he | he
  · simp only [rneFrac]
    set n := a.fdiv b with hn
    obtain ⟨r, hr, h0, h1⟩ : ∃ r, a = n * b + r ∧ 0 ≤ r ∧ r < b :=
      ⟨a.fmod b, by rw [hn, Int.mul_comm]; exact (Int.fdiv_add_fmod a b).symm,
        Int.fmod_nonneg' a hb, Int.fmod_lt_of_pos a hb⟩
    have k1 : a - n * b = r := by rw [hr]; ring
    have hr0 : r = 0 := by
      have hcb : a - c * b ≤ 0 := by omega
      rw [← he] at hcb
      rw [k1] at hcb
      omega
    have hc1 : 2 * (a - n * b) < b := by rw [k1, hr0]; omega
    rw [if_pos hc1]
    omega
  · rcases rneFrac_cases a b with hx | hx <;> omega

/-- Correctness of the fuel-driven base-2 logarithm. -/
theorem ilog2Nat_spec (fuel n : Nat) (h1 : 1 ≤ n) (h2 : n < 2 ^ fuel) :
    2 ^ ilog2Nat fuel n ≤ n ∧ n < 2 ^ (ilog2Nat fuel n + 1) := by
  induction fuel generalizing n with
  | zero => simp at h2; omega
  | succ fuel ih =>
    by_cases hn : n ≤ 1
    · have : n = 1 := by omega
      subst this
      simp [ilog2Nat]
    · have hrec := ih (n / 2) (by omega) (by
        have : 2 ^ (fuel + 1) = 2 * 2 ^ fuel := by ring
        omega)
      obtain ⟨hl, hu⟩ := hrec
      have he : ilog2Nat (fuel + 1) n = ilog2Nat fuel (n / 2) + 1 := by
        simp [ilog2Nat, hn]
      rw [he]
      have e1 : 2 ^ (ilog2Nat fuel (n / 2) + 1) = 2 * 2 ^ ilog2Nat fuel (n / 2) := by ring
      have e2 : 2 ^ (ilog2Nat fuel (n / 2) + 1 + 1) = 4 * 2 ^ ilog2Nat fuel (n / 2) := by ring
      omega

/-- Correctness of `ilogFrac`: it returns the binade of `a / b`. -/
theorem ilogFrac_spec (a b : Nat) (ha : 0 < a) (hb : 0 < b) :
    (2:ℚ) ^ ilogFrac a b ≤ (a : ℚ) / b ∧ (a : ℚ) / b < (2:ℚ) ^ (ilogFrac a b + 1) := by
  have hbq : (0:ℚ) < b := by exact_mod_cast hb
  have haq : (0:ℚ) < a := by exact_mod_cast ha
  by_cases hab : b ≤ a
  · have h1 : 1 ≤ a / b := (Nat.le_div_iff_mul_le hb).mpr (by omega)
    obtain ⟨hl, hu⟩ := ilog2Nat_spec (a / b) (a / b) h1 (Nat.lt_two_pow _)
    rw [ilogFrac, if_pos hab]
    set L := ilog2Nat (a / b) (a / b) with hL
    constructor
    · rw [zpow_natCast]
      calc ((2:ℚ) ^ L) = ((2 ^ L : Nat) : ℚ) := by push_cast; ring
      _ ≤ ((a / b : Nat) : ℚ) := by exact_mod_cast hl
      _ ≤ (a : ℚ) / b := Nat.cast_div_le
    · have hn : a < b * (a / b) + b := by
        have h2 := Nat.div_add_mod a b
        have h3 := Nat.mod_lt a hb
        omega

      have step1 : (a : ℚ) / b < ((a / b : Nat) : ℚ) + 1 := by
        rw [div_lt_iff₀ hbq]
        calc (a:ℚ) < (b * (a / b : Nat) + b : Nat) := by exact_mod_cast hn
        _ = (((a / b : Nat) : ℚ) + 1) * b := by push_cast; ring
      have step2 : ((a / b : Nat) : ℚ) + 1 ≤ (2:ℚ) ^ ((L : ℤ) + 1) := by
        have : a / b + 1 ≤ 2 ^ (L + 1) := by omega
        calc ((a / b : Nat) : ℚ) + 1 ≤ ((2 ^ (L + 1) : Nat) : ℚ) := by exact_mod_cast this
        _ = (2:ℚ) ^ ((L : ℤ) + 1) := by
          rw [show ((L : ℤ) + 1) = ((L + 1 : ℕ) : ℤ) from by push_cast; ring, zpow_natCast]
          push_cast
          ring
      exact lt_of_lt_of_le step1 step2
  · have h1 : 1 ≤ b / a := (Nat.le_div_iff_mul_le ha).mpr (by omega)
    obtain ⟨hl, hu⟩ := ilog2Nat_spec (b / a) (b / a) h1 (Nat.lt_two_pow _)
    rw [ilogFrac, if_neg hab]
    set w := ilog2Nat (b / a) (b / a) with hw
    have kl : 2 ^ w * a ≤ b := (Nat.le_div_iff_mul_le ha).mp hl
    have ku : b < 2 ^ (w + 1) * a := (Nat.div_lt_iff_lt_mul ha).mp hu
    have pw : (0:ℚ) < 2 ^ w := by positivity
    have hneg : (2:ℚ) ^ (-(w : ℤ)) = 1 / 2 ^ w := by
      rw [zpow_neg, zpow_natCast, one_div]
    by_cases hc : b ≤ a * 2 ^ w
    · rw [if_pos hc]
      constructor
      · rw [hneg, div_le_div_iff₀ pw hbq]
        have : (b : ℚ) ≤ a * 2 ^ w := by exact_mod_cast hc
        linarith
      · have step1 : (a : ℚ) / b ≤ (2:ℚ) ^ (-(w : ℤ)) := by
          rw [hneg, div_le_div_iff₀ hbq pw]
          have : (2:ℚ) ^ w * a ≤ b := by exact_mod_cast kl
          linarith
        have step2 : (2:ℚ) ^ (-(w : ℤ)) < (2:ℚ) ^ (-(w : ℤ) + 1) :=
          zpow_lt_zpow_right₀ one_lt_two (by omega)
        exact lt_of_le_of_lt step1 step2
    · rw [if_neg hc]
      constructor
      · rw [show (-(w : ℤ) - 1) = -((w + 1 : ℕ) : ℤ) from by push_cast; ring]
        rw [zpow_neg, zpow_natCast, ← one_div, div_le_div_iff₀ (by positivity) hbq]
        have : (b : ℚ) ≤ 2 ^ (w + 1) * a := by
          have := le_of_lt ku
          exact_mod_cast this
        push_cast at this ⊢
        linarith
      · rw [show (-(w : ℤ) - 1 + 1) = -(w : ℤ) from by ring, hneg,
          div_lt_div_iff₀ hbq pw]
        have : (a : ℚ) * 2 ^ w < b := by
          have : a * 2 ^ w < b := by omega
          exact_mod_cast this
        linarith

/-- Rational form of the rounding error: `rneFrac a b` is within `1/2` of `a / b`. -/
theorem rneFrac_q_err (A b : Int) (hb : 0 < b) :
    (A : ℚ) / b - 1 / 2 ≤ (rneFrac A b : ℚ) ∧ (rneFrac A b : ℚ) ≤ (A : ℚ) / b + 1 / 2 := by
  obtain ⟨h1, h2⟩ := rneFrac_err A b hb
  have hbq : (0 : ℚ) < b := by exact_mod_cast hb
  have c1 : ((2 * (A - rneFrac A b * b) : Int) : ℚ) ≤ (b : ℚ) := by exact_mod_cast h1
  have c2 : ((2 * (rneFrac A b * b - A) : Int) : ℚ) ≤ (b : ℚ) := by exact_mod_cast h2
  push_cast at c1 c2
  constructor
  · rw [sub_le_iff_le_add, div_le_iff₀ hbq]
    nlinarith
  · rw [← sub_le_iff_le_add, le_div_iff₀ hbq]
    nlinarith

/-- The scale factors of a binade at most 52 cancel. -/
theorem zpow_sub_toNat (e : Int) (he : e ≤ 52) :
    (2 : ℚ) ^ (e - 52) * (2 : ℚ) ^ ((52 - e).toNat : ℤ) = 1 := by
  rw [show ((52 - e).toNat : ℤ) = 52 - e from by omega, ← zpow_add₀ (two_ne_zero)]
  norm_num

theorem flPosDyadic_eq (a b : Nat) (he : ilogFrac a b ≤ 52) :
    flPosDyadic a b =
      (rneFrac ((a : Int) * 2 ^ (52 - ilogFrac a b).toNat) (b : Int), ilogFrac a b - 52) := by
  rw [flPosDyadic, if_pos he]

theorem flPosDyadic_ge_int (a b : Nat) (c : Int) (hb : 0 < b) (he : ilogFrac a b ≤ 52)
    (hc : (c : ℚ) ≤ (a : ℚ) / b) : (c : ℚ) ≤ dyQ (flPosDyadic a b) := by
  have hbq : (0 : ℚ) < (b : ℚ) := by exact_mod_cast hb
  have hsq : (0 : ℚ) < (2 : ℚ) ^ ((52 - ilogFrac a b).toNat : ℕ) := by positivity
  have h1 : (c : ℚ) * b ≤ a := by rwa [← le_div_iff₀ hbq]
  have hint : c * 2 ^ (52 - ilogFrac a b).toNat * (b : Int) ≤ (a : Int) * 2 ^ (52 - ilogFrac a b).toNat := by
    have h2 : ((c * 2 ^ (52 - ilogFrac a b).toNat * (b : Int) : Int) : ℚ) ≤
        (((a : Int) * 2 ^ (52 - ilogFrac a b).toNat : Int) : ℚ) := by
      push_cast
      nlinarith
    exact_mod_cast h2
  have hm := rneFrac_ge_int _ _ _ (by exact_mod_cast hb) hint
  have hmq : (c : ℚ) * 2 ^ ((52 - ilogFrac a b).toNat : ℕ) ≤
      ((rneFrac ((a : Int) * 2 ^ (52 - ilogFrac a b).toNat) (b : Int) : Int) : ℚ) := by
    exact_mod_cast hm
  rw [flPosDyadic_eq a b he, dyQ]
  have hz : (0 : ℚ) < (2 : ℚ) ^ (ilogFrac a b - 52) := zpow_pos (by norm_num) _
  have key := zpow_sub_toNat (ilogFrac a b) he
  calc (c : ℚ) = (c : ℚ) * ((2 : ℚ) ^ (ilogFrac a b - 52) * (2 : ℚ) ^ ((52 - ilogFrac a b).toNat : ℤ)) := by
        rw [key, mul_one]
  _ = ((c : ℚ) * 2 ^ ((52 - ilogFrac a b).toNat : ℕ)) * (2 : ℚ) ^ (ilogFrac a b - 52) := by
        rw [zpow_natCast]
        ring
  _ ≤ _ := mul_le_mul_of_nonneg_right hmq hz.le

theorem flPosDyadic_le_int (a b : Nat) (c : Int) (hb : 0 < b) (he : ilogFrac a b ≤ 52)
    (hc : (a : ℚ) / b ≤ c) : dyQ (flPosDyadic a b) ≤ (c : ℚ) := by
  have hbq : (0 : ℚ) < (b : ℚ) := by exact_mod_cast hb
  have hsq : (0 : ℚ) < (2 : ℚ) ^ ((52 - ilogFrac a b).toNat : ℕ) := by positivity
  have h1 : (a : ℚ) ≤ c * b := by rwa [div_le_iff₀ hbq] at hc
  have hint : (a : Int) * 2 ^ (52 - ilogFrac a b).toNat ≤ c * 2 ^ (52 - ilogFrac a b).toNat * (b : Int) := by
    have h2 : (((a : Int) * 2 ^ (52 - ilogFrac a b).toNat : Int) : ℚ) ≤
        ((c * 2 ^ (52 - ilogFrac a b).toNat * (b : Int) : Int) : ℚ) := by
      push_cast
      nlinarith
    exact_mod_cast h2
  have hm := rneFrac_le_int _ _ _ (by exact_mod_cast hb) hint
  have hmq : ((rneFrac ((a : Int) * 2 ^ (52 - ilogFrac a b).toNat) (b : Int) : Int) : ℚ) ≤
      (c : ℚ) * 2 ^ ((52 - ilogFrac a b).toNat : ℕ) := by
    exact_mod_cast hm
  rw [flPosDyadic_eq a b he, dyQ]
  have hz : (0 : ℚ) < (2 : ℚ) ^ (ilogFrac a b - 52) := zpow_pos (by norm_num) _
  have key := zpow_sub_toNat (ilogFrac a b) he
  calc ((rneFrac ((a : Int) * 2 ^ (52 - ilogFrac a b).toNat) (b : Int) : Int) : ℚ) *
        (2 : ℚ) ^ (ilogFrac a b - 52)
      ≤ ((c : ℚ) * 2 ^ ((52 - ilogFrac a b).toNat : ℕ)) * (2 : ℚ) ^ (ilogFrac a b - 52) :=
        mul_le_mul_of_nonneg_right hmq hz.le
  _ = (c : ℚ) * ((2 : ℚ) ^ (ilogFrac a b - 52) * (2 : ℚ) ^ ((52 - ilogFrac a b).toNat : ℤ)) := by
        rw [zpow_natCast]
        ring
  _ = (c : ℚ) := by rw [key, mul_one]

/-- Error bound of the binary64 rounding: for a fraction in binade `e ≤ 52`
the rounded value is within `2 ^ (e - 53)` of the true one. -/
theorem flPosDyadic_err (a b : Nat) (hb : 0 < b) (he : ilogFrac a b ≤ 52) :
    (a : ℚ) / b - (2 : ℚ) ^ (ilogFrac a b - 53) ≤ dyQ (flPosDyadic a b) ∧
    dyQ (flPosDyadic a b) ≤ (a : ℚ) / b + (2 : ℚ) ^ (ilogFrac a b - 53) := by
  have hbq : (0 : ℚ) < (b : ℚ) := by exact_mod_cast hb
  set E := ilogFrac a b with hE
  set S := (52 - E).toNat with hS
  set A := (a : Int) * 2 ^ S with hA
  obtain ⟨e1, e2⟩ := rneFrac_q_err A (b : Int) (by exact_mod_cast hb)
  have hz : (0 : ℚ) < (2 : ℚ) ^ (E - 52) := zpow_pos (by norm_num) _
  have key : (2 : ℚ) ^ (E - 52) * (2 : ℚ) ^ (S : ℤ) = 1 := zpow_sub_toNat E he
  have keyA : ((A : Int) : ℚ) / b * (2 : ℚ) ^ (E - 52) = (a : ℚ) / b := by
    rw [hA]
    push_cast
    rw [div_mul_eq_mul_div, mul_assoc,
      show ((2 : ℚ) ^ (S : ℕ) * (2 : ℚ) ^ (E - 52)) = 1 from by
        rw [← zpow_natCast (2 : ℚ) S, mul_comm]
        exact key,
      mul_one]
  have keyH : (1 / 2 : ℚ) * (2 : ℚ) ^ (E - 52) = (2 : ℚ) ^ (E - 53) := by
    rw [show (E - 53) = (E - 52) + (-1) from by ring, zpow_add₀ two_ne_zero, zpow_neg, zpow_one]
    ring
  have hvq : dyQ (flPosDyadic a b) = ((rneFrac A (b : Int) : Int) : ℚ) * (2 : ℚ) ^ (E - 52) := by
    rw [flPosDyadic_eq a b he, dyQ]
  constructor
  · rw [hvq]
    calc (a : ℚ) / b - (2 : ℚ) ^ (E - 53)
        = (((A : Int) : ℚ) / b - 1 / 2) * (2 : ℚ) ^ (E - 52) := by rw [sub_mul, keyA, keyH]
    _ ≤ ((rneFrac A (b : Int) : Int) : ℚ) * (2 : ℚ) ^ (E - 52) :=
        mul_le_mul_of_nonneg_right e1 hz.le
  · rw [hvq]
    calc ((rneFrac A (b : Int) : Int) : ℚ) * (2 : ℚ) ^ (E - 52)
        ≤ (((A : Int) : ℚ) / b + 1 / 2) * (2 : ℚ) ^ (E - 52) :=
        mul_le_mul_of_nonneg_right e2 hz.le
    _ = (a : ℚ) / b + (2 : ℚ) ^ (E - 53) := by rw [add_mul, keyA, keyH]

theorem rneFrac_nonneg (a b : Int) (ha : 0 ≤ a) (hb : 0 ≤ b) : 0 ≤ rneFrac a b := by
  have := Int.fdiv_nonneg ha hb
  rcases rneFrac_cases a b with hx | hx <;> omega

theorem flPosDyadic_fst_nonneg (a b : Nat) : 0 ≤ (flPosDyadic a b).1 := by
  rw [flPosDyadic]
  split_ifs with he
  · exact rneFrac_nonneg _ _ (by positivity) (by positivity)
  · exact rneFrac_nonneg _ _ (by positivity) (by positivity)

theorem dyQ_pos_iff (p : Int × Int) : 0 < dyQ p ↔ 0 < p.1 := by
  have h2 : (0 : ℚ) < (2 : ℚ) ^ p.2 := zpow_pos (by norm_num) _
  rw [dyQ]
  constructor
  · intro h
    by_contra hn
    push_neg at hn
    have hq : (p.1 : ℚ) ≤ 0 := by exact_mod_cast hn
    nlinarith
  · intro h
    exact mul_pos (by exact_mod_cast h) h2

theorem dyQ_nonpos (p : Int × Int) (h : p.1 ≤ 0) : dyQ p ≤ 0 := by
  have h2 : (0 : ℚ) < (2 : ℚ) ^ p.2 := zpow_pos (by norm_num) _
  have hq : (p.1 : ℚ) ≤ 0 := by exact_mod_cast h
  rw [dyQ]
  nlinarith

theorem flDyadic_pos_eq (a b : Int) (ha : 0 < a) : flDyadic a b = flPosDyadic a.toNat b.toNat := by
  rw [flDyadic, if_neg (by omega), if_neg (by omega)]

theorem flDyadic_fst_nonpos (a b : Int) (ha : a ≤ 0) : (flDyadic a b).1 ≤ 0 := by
  rw [flDyadic]
  split_ifs with h1 h2
  · simp
  · show -(flPosDyadic (-a).toNat b.toNat).1 ≤ 0
    have := flPosDyadic_fst_nonneg (-a).toNat b.toNat
    omega
  · exfalso
    omega

/-- Go truncation of a dyadic agrees with the rational floor (used only on
positive values, where floor and truncation toward zero coincide). -/
theorem truncDyadic_eq_floor (p : Int × Int) : truncDyadic p = ⌊dyQ p⌋ := by
  rw [truncDyadic]
  split_ifs with hk
  · have hv : dyQ p = ((p.1 * 2 ^ p.2.toNat : Int) : ℚ) := by
      rw [dyQ]
      push_cast
      congr 1
      rw [← zpow_natCast (2 : ℚ) p.2.toNat]
      congr 1
      omega
    rw [hv, Int.floor_intCast]
  · push_neg at hk
    have hv : dyQ p = (p.1 : ℚ) / ((2 ^ (-p.2).toNat : ℕ) : ℚ) := by
      rw [dyQ, div_eq_mul_inv]
      push_cast
      congr 1
      rw [← zpow_natCast (2 : ℚ) (-p.2).toNat, ← zpow_neg]
      congr 1
      omega
    rw [hv, Rat.floor_intCast_div_natCast, Int.fdiv_eq_ediv _ (by positivity)]
    norm_cast

/-- If `a / b < 2 ^ (c + 1)` then the binade of `a / b` is at most `c`. -/
theorem ilogFrac_le_of_lt (a b : Nat) (ha : 0 < a) (hb : 0 < b) (c : Int)
    (h : (a : ℚ) / b < (2 : ℚ) ^ (c + 1)) : ilogFrac a b ≤ c := by
  by_contra hcon
  push_neg at hcon
  have hspec := (ilogFrac_spec a b ha hb).1
  have hmono : (2 : ℚ) ^ (c + 1) ≤ (2 : ℚ) ^ ilogFrac a b :=
    zpow_le_zpow_right₀ one_le_two (by omega)
  linarith

/-- Exact dyadic addition of an integer shifted into the exponent `k ≤ 0`. -/
theorem dyadic_shift_add (c m k : Int) (hk : k ≤ 0) :
    dyQ (c * 2 ^ (-k).toNat + m, k) = (c : ℚ) + dyQ (m, k) := by
  rw [dyQ, dyQ]
  push_cast
  rw [add_mul]
  congr 1
  rw [mul_assoc,
    show ((2 : ℚ) ^ ((-k).toNat : ℕ) * (2 : ℚ) ^ k) = 1 from by
      rw [← zpow_natCast (2 : ℚ) (-k).toNat, ← zpow_add₀ two_ne_zero,
        show (((-k).toNat : ℤ) + k) = 0 from by omega, zpow_zero],
    mul_one]

/-- A dyadic with negative exponent as an integer-over-power fraction. -/
theorem dyQ_eq_div (m k : Int) (hk : k < 0) :
    dyQ (m, k) = (m : ℚ) / (2 : ℚ) ^ ((-k).toNat : ℕ) := by
  rw [dyQ, div_eq_mul_inv]
  congr 1
  rw [← zpow_natCast (2 : ℚ) (-k).toNat, ← zpow_neg]
  congr 1
  omega

theorem goSeconds_nonpos (d : Int) (hd : d ≤ 0) : (goSeconds d).1 ≤ 0 := by
  have hneg : Int.tdiv (-d) 1000000000 = -Int.tdiv d 1000000000 := Int.neg_tdiv d 1000000000
  have hsec : Int.tdiv d 1000000000 ≤ 0 := by
    have h1 : 0 ≤ Int.tdiv (-d) 1000000000 := Int.tdiv_nonneg (by omega) (by norm_num)
    omega
  have hmodneg : Int.tmod (-d) 1000000000 = -Int.tmod d 1000000000 := by
    rw [Int.tmod_def, Int.tmod_def, Int.neg_tdiv]
    ring
  have hnsec : Int.tmod d 1000000000 ≤ 0 := by
    have h1 : 0 ≤ Int.tmod (-d) 1000000000 := Int.tmod_nonneg _ (by omega)
    omega
  simp only [goSeconds]
  set sec := Int.tdiv d 1000000000 with hsdef
  set x := flDyadic (Int.tmod d 1000000000) 1000000000 with hxdef
  have hx1 : x.1 ≤ 0 := flDyadic_fst_nonpos _ _ hnsec
  set y := (if 0 ≤ x.2 then (sec + x.1 * 2 ^ x.2.toNat, (0 : Int))
      else (sec * 2 ^ (-x.2).toNat + x.1, x.2)) with hydef
  have hy1 : y.1 ≤ 0 := by
    rw [hydef]
    split_ifs with hk
    · show sec + x.1 * 2 ^ x.2.toNat ≤ 0
      have h2 : (0 : Int) ≤ 2 ^ x.2.toNat := by positivity
      nlinarith
    · show sec * 2 ^ (-x.2).toNat + x.1 ≤ 0
      have h2 : (0 : Int) ≤ 2 ^ (-x.2).toNat := by positivity
      nlinarith
  split_ifs with hk2
  · apply flDyadic_fst_nonpos
    have h2 : (0 : Int) ≤ 2 ^ y.2.toNat := by positivity
    nlinarith
  · exact flDyadic_fst_nonpos _ _ hy1

theorem flPosDyadic_snd (a b : Nat) : (flPosDyadic a b).2 = ilogFrac a b - 52 := by
  rw [flPosDyadic]
  split_ifs <;> rfl

/-- Shape of `goSeconds` when the nanosecond part is zero: the seconds count
passes through the final rounding unchanged in form. -/
theorem goSeconds_eq_zero_nsec (d : Int) (hz : Int.tmod d 1000000000 = 0) :
    goSeconds d = flDyadic (Int.tdiv d 1000000000) 1 := by
  have hx : flDyadic 0 1000000000 = (0, 0) := by rw [flDyadic]; norm_num
  simp only [goSeconds, hz, hx]
  norm_num

/-- Shape of `goSeconds` when the nanosecond part is positive: the rounded
quotient has a negative exponent, so the exact sum is a fraction over a power
of two, rounded once more. -/
theorem goSeconds_eq_pos_nsec (d : Int)
    (hx2 : (flDyadic (Int.tmod d 1000000000) 1000000000).2 < 0) :
    goSeconds d = flDyadic
      (Int.tdiv d 1000000000 *
          2 ^ (-(flDyadic (Int.tmod d 1000000000) 1000000000).2).toNat
        + (flDyadic (Int.tmod d 1000000000) 1000000000).1)
      (2 ^ (-(flDyadic (Int.tmod d 1000000000) 1000000000).2).toNat) := by
  simp only [goSeconds]
  set x := flDyadic (Int.tmod d 1000000000) 1000000000 with hxdef
  rw [if_neg (not_le.mpr hx2)]
  rw [if_neg (not_le.mpr hx2)]

/-- Value of the `Seconds()` model on a positive in-range duration: the
mantissa is positive and the value lies in `[sec, sec + 1]`, where `sec` is
the truncated whole-second count; it is strictly below `sec + 1` whenever the
duration is under `2 ^ 24` seconds. -/
theorem goSeconds_pos_spec (d : Int) (h0 : 0 < d) (h1 : d ≤ int64Max) :
    0 < (goSeconds d).1 ∧
    ((Int.tdiv d 1000000000 : Int) : ℚ) ≤ dyQ (goSeconds d) ∧
    dyQ (goSeconds d) ≤ ((Int.tdiv d 1000000000 : Int) : ℚ) + 1 ∧
    (d < 16777216000000000 → dyQ (goSeconds d) < ((Int.tdiv d 1000000000 : Int) : ℚ) + 1) := by
  have hsec0 : 0 ≤ Int.tdiv d 1000000000 := Int.tdiv_nonneg h0.le (by norm_num)
  have hsecB : Int.tdiv d 1000000000 ≤ 9223372036 := by
    rw [Int.tdiv_eq_ediv h0.le (by norm_num)]
    calc d / 1000000000 ≤ int64Max / 1000000000 := Int.ediv_le_ediv (by norm_num) h1
    _ = 9223372036 := by decide
  have hnsec0 : 0 ≤ Int.tmod d 1000000000 := Int.tmod_nonneg _ h0.le
  have hnsecB : Int.tmod d 1000000000 < 1000000000 := Int.tmod_lt_of_pos _ (by norm_num)
  have hds : 1000000000 * Int.tdiv d 1000000000 + Int.tmod d 1000000000 = d :=
    Int.tdiv_add_tmod d 1000000000
  by_cases hz : Int.tmod d 1000000000 = 0
  · have hsecpos : 0 < Int.tdiv d 1000000000 := by omega
    have hgs : goSeconds d = flPosDyadic (Int.tdiv d 1000000000).toNat 1 := by
      rw [goSeconds_eq_zero_nsec d hz, flDyadic_pos_eq _ _ hsecpos]
      rfl
    have hquot : (((Int.tdiv d 1000000000).toNat : ℕ) : ℚ) / ((1 : ℕ) : ℚ)
        = ((Int.tdiv d 1000000000 : Int) : ℚ) := by
      rw [show (((Int.tdiv d 1000000000).toNat : ℕ) : ℚ) = ((Int.tdiv d 1000000000 : Int) : ℚ)
        from by exact_mod_cast Int.toNat_of_nonneg hsec0]
      norm_num
    have he : ilogFrac (Int.tdiv d 1000000000).toNat 1 ≤ 33 := by
      apply ilogFrac_le_of_lt _ _ (by omega) (by norm_num) 33
      rw [hquot]
      have : ((Int.tdiv d 1000000000 : Int) : ℚ) ≤ 9223372036 := by exact_mod_cast hsecB
      have h34 : (9223372036 : ℚ) < 2 ^ (33 + 1 : ℤ) := by norm_num
      linarith
    have hVl := flPosDyadic_ge_int (Int.tdiv d 1000000000).toNat 1 (Int.tdiv d 1000000000)
      (by norm_num) (by omega) (le_of_eq hquot.symm)
    have hVu := flPosDyadic_le_int (Int.tdiv d 1000000000).toNat 1 (Int.tdiv d 1000000000)
      (by norm_num) (by omega) (le_of_eq hquot)
    refine ⟨?_, by rw [hgs]; exact hVl, by rw [hgs]; linarith [hVu], fun _ => by
      rw [hgs]; linarith [hVu]⟩
    rw [hgs]
    apply (dyQ_pos_iff _).mp
    have h1q : (1 : ℚ) ≤ ((Int.tdiv d 1000000000 : Int) : ℚ) := by exact_mod_cast hsecpos
    linarith [hVl]
  · have hnz : 0 < Int.tmod d 1000000000 := by omega
    have hBt : (1000000000 : Int).toNat = 1000000000 := rfl
    have hxeq : flDyadic (Int.tmod d 1000000000) 1000000000
        = flPosDyadic (Int.tmod d 1000000000).toNat 1000000000 := by
      rw [flDyadic_pos_eq _ _ hnz, hBt]
    have ha0 : 0 < (Int.tmod d 1000000000).toNat := by omega
    have haB : (Int.tmod d 1000000000).toNat < 1000000000 := by omega
    have haq : (((Int.tmod d 1000000000).toNat : ℕ) : ℚ) = ((Int.tmod d 1000000000 : Int) : ℚ) := by
      exact_mod_cast Int.toNat_of_nonneg hnsec0
    have hex : ilogFrac (Int.tmod d 1000000000).toNat 1000000000 ≤ -1 := by
      apply ilogFrac_le_of_lt _ _ ha0 (by norm_num) (-1)
      rw [show (-1 + 1 : ℤ) = 0 from by ring, zpow_zero, div_lt_one (by norm_num)]
      exact_mod_cast haB
    have hx2 : (flDyadic (Int.tmod d 1000000000) 1000000000).2 < 0 := by
      rw [hxeq, flPosDyadic_snd]
      omega
    have hgs := goSeconds_eq_pos_nsec d hx2
    set x := flDyadic (Int.tmod d 1000000000) 1000000000 with hxdef
    have herr := flPosDyadic_err (Int.tmod d 1000000000).toNat 1000000000 (by norm_num)
      (by omega)
    rw [show ((1000000000 : ℕ) : ℚ) = (1000000000 : ℚ) from by norm_num] at herr
    have hxval : dyQ x = dyQ (flPosDyadic (Int.tmod d 1000000000).toNat 1000000000) := by
      rw [hxeq]
    have hqlo : (1 : ℚ) / 1000000000 ≤ (((Int.tmod d 1000000000).toNat : ℕ) : ℚ) / 1000000000 := by
      gcongr
      exact_mod_cast ha0
    have hqup : (((Int.tmod d 1000000000).toNat : ℕ) : ℚ) / 1000000000
        ≤ (999999999 : ℚ) / 1000000000 := by
      gcongr
      exact_mod_cast (by omega : (Int.tmod d 1000000000).toNat ≤ 999999999)
    have herr54 : (2 : ℚ) ^ (ilogFrac (Int.tmod d 1000000000).toNat 1000000000 - 53)
        ≤ (2 : ℚ) ^ (-54 : ℤ) := zpow_le_zpow_right₀ one_le_two (by omega)
    have hxlo : (1 : ℚ) / 1000000000 - (2 : ℚ) ^ (-54 : ℤ) ≤ dyQ x := by
      rw [hxval]
      have e1 := herr.1
      have e2 := herr54
      generalize hEE : (2 : ℚ) ^ (ilogFrac (Int.tmod d 1000000000).toNat 1000000000 - 53) = E
        at e1 e2
      generalize hAA : (2 : ℚ) ^ (-54 : ℤ) = A at e2 ⊢
      linarith [hqlo]
    have hxup : dyQ x ≤ (999999999 : ℚ) / 1000000000 + (2 : ℚ) ^ (-54 : ℤ) := by
      rw [hxval]
      have e1 := herr.2
      have e2 := herr54
      generalize hEE : (2 : ℚ) ^ (ilogFrac (Int.tmod d 1000000000).toNat 1000000000 - 53) = E
        at e1 e2
      generalize hAA : (2 : ℚ) ^ (-54 : ℤ) = A at e2 ⊢
      linarith [hqup]
    have hxpos : (0 : ℚ) < dyQ x := by
      have hn : (0 : ℚ) < 1 / 1000000000 - 2 ^ (-54 : ℤ) := by norm_num
      linarith
    have hxlt1 : dyQ x < 1 := by
      have hn : (999999999 : ℚ) / 1000000000 + 2 ^ (-54 : ℤ) < 1 := by norm_num
      linarith
    have hyval : dyQ (Int.tdiv d 1000000000 * 2 ^ (-x.2).toNat + x.1, x.2)
        = ((Int.tdiv d 1000000000 : Int) : ℚ) + dyQ x := by
      rw [dyadic_shift_add _ _ _ hx2.le]
    have hy1pos : 0 < Int.tdiv d 1000000000 * 2 ^ (-x.2).toNat + x.1 := by
      apply (dyQ_pos_iff (Int.tdiv d 1000000000 * 2 ^ (-x.2).toNat + x.1, x.2)).mp
      rw [hyval]
      have hsq : (0 : ℚ) ≤ ((Int.tdiv d 1000000000 : Int) : ℚ) := by exact_mod_cast hsec0
      linarith
    have hR : goSeconds d = flPosDyadic (Int.tdiv d 1000000000 * 2 ^ (-x.2).toNat + x.1).toNat
        ((2 ^ (-x.2).toNat : Int)).toNat := by
      rw [hgs, flDyadic_pos_eq _ _ hy1pos]
    have hbpos : 0 < ((2 ^ (-x.2).toNat : Int)).toNat := by
      have hp : (0 : Int) < 2 ^ (-x.2).toNat := by positivity
      omega
    have hfrac : (((Int.tdiv d 1000000000 * 2 ^ (-x.2).toNat + x.1).toNat : ℕ) : ℚ) /
        ((((2 ^ (-x.2).toNat : Int)).toNat : ℕ) : ℚ)
        = ((Int.tdiv d 1000000000 : Int) : ℚ) + dyQ x := by
      rw [← hyval, dyQ_eq_div _ _ hx2]
      congr 1
      · exact_mod_cast Int.toNat_of_nonneg hy1pos.le
      · have hteq : ((((2 ^ (-x.2).toNat : Int)).toNat : ℕ) : ℤ) = (2 ^ (-x.2).toNat : Int) :=
          Int.toNat_of_nonneg (by positivity)
        exact_mod_cast hteq
    have hsecq : ((Int.tdiv d 1000000000 : Int) : ℚ) ≤ 9223372036 := by exact_mod_cast hsecB
    have hey : ilogFrac (Int.tdiv d 1000000000 * 2 ^ (-x.2).toNat + x.1).toNat
        ((2 ^ (-x.2).toNat : Int)).toNat ≤ 33 := by
      apply ilogFrac_le_of_lt _ _ (by omega) hbpos 33
      rw [hfrac]
      have h34 : (9223372036 : ℚ) + 1 < 2 ^ (33 + 1 : ℤ) := by norm_num
      linarith
    have hRl : ((Int.tdiv d 1000000000 : Int) : ℚ) ≤ dyQ (goSeconds d) := by
      rw [hR]
      apply flPosDyadic_ge_int _ _ _ hbpos (by omega)
      rw [hfrac]
      linarith
    have hRu : dyQ (goSeconds d) ≤ ((Int.tdiv d 1000000000 : Int) : ℚ) + 1 := by
      rw [hR]
      calc dyQ _ ≤ ((Int.tdiv d 1000000000 + 1 : Int) : ℚ) :=
            flPosDyadic_le_int _ _ _ hbpos (by omega)
              (by rw [hfrac]; push_cast; linarith)
      _ = ((Int.tdiv d 1000000000 : Int) : ℚ) + 1 := by push_cast; ring
    have hRpos : 0 < (goSeconds d).1 := by
      rw [hR]
      apply (dyQ_pos_iff _).mp
      by_cases hs1 : 1 ≤ Int.tdiv d 1000000000
      · have h1q : (1 : ℚ) ≤ ((Int.tdiv d 1000000000 : Int) : ℚ) := by exact_mod_cast hs1
        have := hRl
        rw [hR] at this
        linarith
      · have hs0 : Int.tdiv d 1000000000 = 0 := by omega
        have hyQx : (((Int.tdiv d 1000000000 * 2 ^ (-x.2).toNat + x.1).toNat : ℕ) : ℚ) /
            ((((2 ^ (-x.2).toNat : Int)).toNat : ℕ) : ℚ) = dyQ x := by
          rw [hfrac, hs0]
          norm_num
        have hey1 : ilogFrac (Int.tdiv d 1000000000 * 2 ^ (-x.2).toNat + x.1).toNat
            ((2 ^ (-x.2).toNat : Int)).toNat ≤ -1 := by
          apply ilogFrac_le_of_lt _ _ (by omega) hbpos (-1)
          rw [hyQx, show (-1 + 1 : ℤ) = 0 from by ring, zpow_zero]
          exact hxlt1
        have herrR := flPosDyadic_err (Int.tdiv d 1000000000 * 2 ^ (-x.2).toNat + x.1).toNat
          ((2 ^ (-x.2).toNat : Int)).toNat hbpos (by omega)
        have h54 : (2 : ℚ) ^ (ilogFrac (Int.tdiv d 1000000000 * 2 ^ (-x.2).toNat + x.1).toNat
            ((2 ^ (-x.2).toNat : Int)).toNat - 53) ≤ (2 : ℚ) ^ (-54 : ℤ) :=
          zpow_le_zpow_right₀ one_le_two (by omega)
        have hlow := herrR.1
        rw [hyQx] at hlow
        have hn : (0 : ℚ) < 1 / 1000000000 - 2 ^ (-54 : ℤ) - 2 ^ (-54 : ℤ) := by norm_num
        have hxlo2 := hxlo
        generalize hEE : (2 : ℚ) ^ (ilogFrac (Int.tdiv d 1000000000 * 2 ^ (-x.2).toNat + x.1).toNat
          ((2 ^ (-x.2).toNat : Int)).toNat - 53) = E at hlow h54
        generalize hAA : (2 : ℚ) ^ (-54 : ℤ) = A at h54 hxlo2 hn
        linarith
    refine ⟨hRpos, hRl, hRu, ?_⟩
    intro hd24
    have hsec24 : Int.tdiv d 1000000000 ≤ 16777215 := by omega
    have hey24 : ilogFrac (Int.tdiv d 1000000000 * 2 ^ (-x.2).toNat + x.1).toNat
        ((2 ^ (-x.2).toNat : Int)).toNat ≤ 23 := by
      apply ilogFrac_le_of_lt _ _ (by omega) hbpos 23
      rw [hfrac]
      have hs24 : ((Int.tdiv d 1000000000 : Int) : ℚ) ≤ 16777215 := by exact_mod_cast hsec24
      have h24 : (16777215 : ℚ) + 1 ≤ 2 ^ (23 + 1 : ℤ) := by norm_num
      linarith
    have herrR := flPosDyadic_err (Int.tdiv d 1000000000 * 2 ^ (-x.2).toNat + x.1).toNat
      ((2 ^ (-x.2).toNat : Int)).toNat hbpos (by omega)
    have h30 : (2 : ℚ) ^ (ilogFrac (Int.tdiv d 1000000000 * 2 ^ (-x.2).toNat + x.1).toNat
        ((2 ^ (-x.2).toNat : Int)).toNat - 53) ≤ (2 : ℚ) ^ (-30 : ℤ) :=
      zpow_le_zpow_right₀ one_le_two (by omega)
    have hup := herrR.2
    rw [hfrac] at hup
    rw [hR]
    have hkey : (999999999 : ℚ) / 1000000000 + 2 ^ (-54 : ℤ) + 2 ^ (-30 : ℤ) < 1 := by norm_num
    have hxup2 := hxup
    generalize hEE : (2 : ℚ) ^ (ilogFrac (Int.tdiv d 1000000000 * 2 ^ (-x.2).toNat + x.1).toNat
      ((2 ^ (-x.2).toNat : Int)).toNat - 53) = E at hup h30
    generalize hAA : (2 : ℚ) ^ (-54 : ℤ) = A54 at hxup2 hkey
    generalize hBB : (2 : ℚ) ^ (-30 : ℤ) = A30 at h30 hkey
    linarith

theorem checkAndRemove_not_expired (s : KVStore) (now : Int) (key : String)
    (h : hasPastExpiry s now key = false) :
    checkAndRemoveIfExpired s now key = (s, false) := by
  rcases he : lookupA s.expiries key with _ | e
  · simp [checkAndRemoveIfExpired, he]
  · rw [hasPastExpiry, he] at h
    simp at h
    simp [checkAndRemoveIfExpired, he, h]

theorem wrap64_eq_of_range (z : Int) (h1 : int64Min ≤ z) (h2 : z ≤ int64Max) :
    wrap64 z = z := by
  rw [int64Min] at h1
  rw [int64Max] at h2
  have hp : (2 : Int) ^ 63 = 9223372036854775808 := by norm_num
  have hq : (2 : Int) ^ 64 = 18446744073709551616 := by norm_num
  rw [hp] at h1 h2
  rw [wrap64, hp, hq, Int.emod_eq_of_lt (by omega) (by omega)]
  omega

theorem clamp64_eq_of_range (z : Int) (h1 : int64Min ≤ z) (h2 : z ≤ int64Max) :
    clamp64 z = z := by
  rw [clamp64, min_eq_right h2, max_eq_right h1]

/-! ### Sanity checks -/

example : atoi "10" = some 10 := by decide
example : atoi "-7" = some (-7) := by decide
example : atoi "abc" = none := by decide
example : atoi "" = none := by decide
example : atoi "+3" = some 3 := by decide
example : itoa (-5) = "-5" := by decide
example : (Incr ⟨[], []⟩ 0 "k").2 = some 1 := by decide
example : (Get (Set ⟨[], []⟩ "k" "v") 0 "k").2 = ("v", true) := by decide
example : TTL ⟨[("k", "v")], [("k", 5 * nsPerSec)]⟩ 0 "k" = 5 := by decide
example : bulkStringToString "bar" = "$3\r\nbar\r\n" := by decide
example : bulkStringToString "" = "$-1\r\n" := by decide

/-! ### Claim theorems -/

/-- C1: `Set(k, v)` followed immediately by `Get(k)` returns `(v, true)`,
unless an expiration previously set on `k` is already in the past at the time
of the `Get`, in which case `Get` returns not-found. -/
theorem c1_set_then_get (s : KVStore) (now : Int) (k v : String) :
    (hasPastExpiry s now k = false → (Get (Set s k v) now k).2 = (v, true)) ∧
    (hasPastExpiry s now k = true → (Get (Set s k v) now k).2 = ("", false)) := by
  constructor
  · intro h
    have hcr : checkAndRemoveIfExpired (Set s k v) now k = (Set s k v, false) :=
      checkAndRemove_not_expired _ _ _ h
    simp only [Get]
    rw [hcr]
    simp [Set, lookupA_insertA_self]
  · intro h
    rcases he : lookupA s.expiries k with _ | e
    · rw [hasPastExpiry, he] at h
      simp at h
    · rw [hasPastExpiry, he] at h
      have hlt : e < now := of_decide_eq_true h
      simp [Get, checkAndRemoveIfExpired, Set, he, hlt]

theorem c1_set_then_get_witness :
    (Get (Set (⟨[], []⟩ : KVStore) "a" "x") 0 "a").2 = ("x", true) ∧
    (Get (Set (⟨[("a", "old")], [("a", -1)]⟩ : KVStore) "a" "x") 5 "a").2 = ("", false) :=
  ⟨(c1_set_then_get ⟨[], []⟩ 0 "a" "x").1 (by decide),
   (c1_set_then_get ⟨[("a", "old")], [("a", -1)]⟩ 5 "a" "x").2 (by decide)⟩

/-- C2: `Set(k, v)` installs `v` in the values map and leaves the expirations
map completely unchanged, so a TTL set earlier stays in effect over the fresh
value: if that expiration is already past, a `Get` after the `Set` still
reports not-found. -/
theorem c2_set_preserves_expiries (s : KVStore) (now : Int) (k v : String) :
    (Set s k v).expiries = s.expiries ∧
    lookupA (Set s k v).store k = some v ∧
    (hasPastExpiry s now k = true → (Get (Set s k v) now k).2 = ("", false)) := by
  refine ⟨rfl, lookupA_insertA_self _ _ _, ?_⟩
  intro h
  rcases he : lookupA s.expiries k with _ | e
  · rw [hasPastExpiry, he] at h
    simp at h
  · rw [hasPastExpiry, he] at h
    have hlt : e < now := of_decide_eq_true h
    simp [Get, checkAndRemoveIfExpired, Set, he, hlt]

theorem c2_set_preserves_expiries_witness :
    (Set (⟨[("b", "1")], [("b", 7)]⟩ : KVStore) "b" "2").expiries = [("b", 7)] ∧
    (Get (Set (⟨[("b", "1")], [("b", 7)]⟩ : KVStore) "b" "2") 10 "b").2 = ("", false) :=
  ⟨(c2_set_preserves_expiries ⟨[("b", "1")], [("b", 7)]⟩ 10 "b" "2").1,
   (c2_set_preserves_expiries ⟨[("b", "1")], [("b", 7)]⟩ 10 "b" "2").2.2 (by decide)⟩

/-- C3: `Add` on a key whose current logical value does not parse as a
base-10 integer returns an error and leaves the store unmodified; the stored
value of the key is still the original text. -/
theorem c3_add_non_numeric (s : KVStore) (now : Int) (k : String) (x : Int) (v : String)
    (h1 : hasPastExpiry s now k = false) (h2 : lookupA s.store k = some v)
    (h3 : atoi v = none) :
    Add s now k x = (s, none) ∧
    Incr s now k = (s, none) ∧
    Decr s now k = (s, none) ∧
    lookupA (Add s now k x).1.store k = some v := by
  have hcr : checkAndRemoveIfExpired s now k = (s, false) :=
    checkAndRemove_not_expired _ _ _ h1
  have hAll : ∀ y, Add s now k y = (s, none) := by
    intro y
    simp only [Add]
    rw [hcr]
    simp [h2, h3]
  exact ⟨hAll x, hAll 1, hAll (-1), by rw [hAll x]; exact h2⟩

theorem c3_add_non_numeric_witness :
    Add (⟨[("k", "abc")], []⟩ : KVStore) 0 "k" 7 = (⟨[("k", "abc")], []⟩, none) ∧
    Incr (⟨[("k", "abc")], []⟩ : KVStore) 0 "k" = (⟨[("k", "abc")], []⟩, none) ∧
    Decr (⟨[("k", "abc")], []⟩ : KVStore) 0 "k" = (⟨[("k", "abc")], []⟩, none) ∧
    lookupA (Add (⟨[("k", "abc")], []⟩ : KVStore) 0 "k" 7).1.store "k" = some "abc" :=
  c3_add_non_numeric ⟨[("k", "abc")], []⟩ 0 "k" 7 "abc" (by decide) (by decide) (by decide)

/-- A logically-absent key incremented once: the result is `1` and the new
state stores `"1"` with no past expiry left on the key. -/
theorem add_absent (s : KVStore) (now : Int) (k : String)
    (h : logicallyPresent s now k = false) :
    ∃ s', Incr s now k = (s', some 1) ∧ lookupA s'.store k = some (itoa 1) ∧
      hasPastExpiry s' now k = false := by
  cases hpe : hasPastExpiry s now k with
  | false =>
    have hnone : lookupA s.store k = none := by
      cases hx : lookupA s.store k with
      | none => rfl
      | some w => rw [logicallyPresent, hpe, hx] at h; simp at h
    have hcr := checkAndRemove_not_expired s now k hpe
    refine ⟨{ s with store := insertA s.store k (itoa 1) }, ?_,
      lookupA_insertA_self _ _ _, hpe⟩
    simp only [Incr, Add]
    rw [hcr]
    simp [hnone, (by decide : atoi "0" = some 0), (by decide : wrap64 1 = 1)]
  | true =>
    obtain ⟨e, he, hlt⟩ : ∃ e, lookupA s.expiries k = some e ∧ e < now := by
      rcases hx : lookupA s.expiries k with _ | e
      · rw [hasPastExpiry, hx] at hpe; simp at hpe
      · rw [hasPastExpiry, hx] at hpe; exact ⟨e, rfl, of_decide_eq_true hpe⟩
    have hcr : checkAndRemoveIfExpired s now k
        = (⟨eraseA s.store k, eraseA s.expiries k⟩, true) := by
      simp [checkAndRemoveIfExpired, he, hlt]
    refine ⟨⟨insertA (eraseA s.store k) k (itoa 1), eraseA s.expiries k⟩, ?_,
      lookupA_insertA_self _ _ _, ?_⟩
    · simp only [Incr, Add]
      rw [hcr]
      simp [lookupA_eraseA_self, (by decide : atoi "0" = some 0),
        (by decide : wrap64 1 = 1)]
    · simp [hasPastExpiry, lookupA_eraseA_self]

/-- One `Incr` step on a key currently holding the decimal text of `n`. -/
theorem add_step (s : KVStore) (now : Int) (k : String) (n : Int)
    (h1 : hasPastExpiry s now k = false) (h2 : lookupA s.store k = some (itoa n))
    (h3 : atoi (itoa n) = some n) (h4 : wrap64 (n + 1) = n + 1) :
    ∃ s', Incr s now k = (s', some (n + 1)) ∧ lookupA s'.store k = some (itoa (n + 1)) ∧
      hasPastExpiry s' now k = false := by
  have hcr := checkAndRemove_not_expired s now k h1
  refine ⟨{ s with store := insertA s.store k (itoa (n + 1)) }, ?_,
    lookupA_insertA_self _ _ _, h1⟩
  simp only [Incr, Add]
  rw [hcr]
  simp [h2, h3, h4]

/-- C4: `Increment` on a logically-absent key treats the value as `"0"`,
returns `1` and stores `"1"`; ten sequential `Increment` calls starting from
an absent key yield `10`. -/
theorem c4_incr_ten_times (s : KVStore) (now : Int) (k : String)
    (h : logicallyPresent s now k = false) :
    (Incr s now k).2 = some 1 ∧
    lookupA (Incr s now k).1.store k = some "1" ∧
    (Incr (incrIterState s now k 9) now k).2 = some 10 := by
  obtain ⟨s1, e1, l1, p1⟩ := add_absent s now k h
  obtain ⟨s2, e2, l2, p2⟩ := add_step s1 now k 1 p1 l1 (by decide) (by decide)
  obtain ⟨s3, e3, l3, p3⟩ := add_step s2 now k 2 p2 l2 (by decide) (by decide)
  obtain ⟨s4, e4, l4, p4⟩ := add_step s3 now k 3 p3 l3 (by decide) (by decide)
  obtain ⟨s5, e5, l5, p5⟩ := add_step s4 now k 4 p4 l4 (by decide) (by decide)
  obtain ⟨s6, e6, l6, p6⟩ := add_step s5 now k 5 p5 l5 (by decide) (by decide)
  obtain ⟨s7, e7, l7, p7⟩ := add_step s6 now k 6 p6 l6 (by decide) (by decide)
  obtain ⟨s8, e8, l8, p8⟩ := add_step s7 now k 7 p7 l7 (by decide) (by decide)
  obtain ⟨s9, e9, l9, p9⟩ := add_step s8 now k 8 p8 l8 (by decide) (by decide)
  obtain ⟨s10, e10, l10, p10⟩ := add_step s9 now k 9 p9 l9 (by decide) (by decide)
  have i1 : incrIterState s now k 1 = s1 := by
    show (Incr (incrIterState s now k 0) now k).1 = s1
    show (Incr s now k).1 = s1
    rw [e1]
  have i2 : incrIterState s now k 2 = s2 := by
    show (Incr (incrIterState s now k 1) now k).1 = s2
    rw [i1, e2]
  have i3 : incrIterState s now k 3 = s3 := by
    show (Incr (incrIterState s now k 2) now k).1 = s3
    rw [i2, e3]
  have i4 : incrIterState s now k 4 = s4 := by
    show (Incr (incrIterState s now k 3) now k).1 = s4
    rw [i3, e4]
  have i5 : incrIterState s now k 5 = s5 := by
    show (Incr (incrIterState s now k 4) now k).1 = s5
    rw [i4, e5]
  have i6 : incrIterState s now k 6 = s6 := by
    show (Incr (incrIterState s now k 5) now k).1 = s6
    rw [i5, e6]
  have i7 : incrIterState s now k 7 = s7 := by
    show (Incr (incrIterState s now k 6) now k).1 = s7
    rw [i6, e7]
  have i8 : incrIterState s now k 8 = s8 := by
    show (Incr (incrIterState s now k 7) now k).1 = s8
    rw [i7, e8]
  have i9 : incrIterState s now k 9 = s9 := by
    show (Incr (incrIterState s now k 8) now k).1 = s9
    rw [i8, e9]
  refine ⟨by rw [e1], ?_, by rw [i9, e10]; norm_num⟩
  rw [e1]
  exact (by decide : itoa 1 = "1") ▸ l1

theorem c4_incr_ten_times_witness :
    (Incr (⟨[], []⟩ : KVStore) 0 "n").2 = some 1 ∧
    lookupA (Incr (⟨[], []⟩ : KVStore) 0 "n").1.store "n" = some "1" ∧
    (Incr (incrIterState ⟨[], []⟩ 0 "n" 9) 0 "n").2 = some 10 :=
  c4_incr_ten_times ⟨[], []⟩ 0 "n" (by decide)

/-- C5 counterexample: at a remaining duration of `16777216999999999` ns
(`2^24` s plus `999999999` ns) the `float64` sum computed by
`Duration.Seconds()` rounds up across the integer boundary to exactly
`16777217.0`, so `TTL` returns `16777217` — one more than the truncated whole
seconds `16777216`.  The result is not computed by truncation. -/
theorem c5_counterexample :
    TTL (⟨[("k", "v")], [("k", 16777216999999999)]⟩ : KVStore) 0 "k" = 16777217 ∧
    (16777216999999999 : Int) / nsPerSec = 16777216 ∧
    TTL (⟨[("k", "v")], [("k", 16777216999999999)]⟩ : KVStore) 0 "k"
      ≠ (16777216999999999 : Int) / nsPerSec :=
  ⟨by decide, by decide, by decide⟩

/-- C5 (amended): `TTL` returns `-2` when the key is absent from the value
map; `-1` when it is present with no recorded expiration; `-2` when the
remaining time is at or below zero; otherwise it returns the whole seconds
remaining as computed by the `float64` conversion of `Duration.Seconds()`
followed by `int(...)`: below `2^24` seconds remaining this equals the
truncated non-negative whole seconds, and in general it is never below the
truncated value and exceeds it by at most one (the `float64` sum can round up
across an integer boundary, first at `16777216.999999999` seconds). -/
theorem c5_ttl_float_cases (s : KVStore) (now : Int) (k : String) :
    (lookupA s.store k = none → TTL s now k = -2) ∧
    ((lookupA s.store k).isSome → lookupA s.expiries k = none → TTL s now k = -1) ∧
    (∀ e, (lookupA s.store k).isSome → lookupA s.expiries k = some e → e - now ≤ 0 →
      TTL s now k = -2) ∧
    (∀ e, (lookupA s.store k).isSome → lookupA s.expiries k = some e → 0 < e - now →
      e - now < 16777216 * nsPerSec →
      TTL s now k = (e - now) / nsPerSec ∧ 0 ≤ TTL s now k) ∧
    (∀ e, (lookupA s.store k).isSome → lookupA s.expiries k = some e → 0 < e - now →
      e - now ≤ int64Max →
      (e - now) / nsPerSec ≤ TTL s now k ∧ TTL s now k ≤ (e - now) / nsPerSec + 1) := by
  refine ⟨fun h => by simp [TTL, h], fun hs he => ?_, fun e hs he hz => ?_,
    fun e hs he h0 hm => ?_, fun e hs he h0 hm => ?_⟩
  · obtain ⟨v, hv⟩ := Option.isSome_iff_exists.mp hs
    simp [TTL, hv, he]
  · obtain ⟨v, hv⟩ := Option.isSome_iff_exists.mp hs
    have hcl : clamp64 (e - now) ≤ 0 := by
      apply max_le
      · norm_num [int64Min]
      · exact le_trans (min_le_right _ _) hz
    have hnp := goSeconds_nonpos _ hcl
    simp [TTL, hv, he, hnp]
  · obtain ⟨v, hv⟩ := Option.isSome_iff_exists.mp hs
    have hm' : e - now ≤ int64Max := by
      have hub : (16777216 * nsPerSec : Int) ≤ int64Max := by norm_num [nsPerSec, int64Max]
      omega
    have hcl : clamp64 (e - now) = e - now := by
      apply clamp64_eq_of_range _ _ hm'
      have : (int64Min : Int) < 0 := by norm_num [int64Min]
      omega
    obtain ⟨hp, hl, hu, hstrict⟩ := goSeconds_pos_spec (e - now) h0 hm'
    have hst := hstrict (by
      rw [show (16777216000000000 : Int) = 16777216 * nsPerSec from by norm_num [nsPerSec]]
      exact hm)
    have htd : Int.tdiv (e - now) 1000000000 = (e - now) / nsPerSec := by
      rw [Int.tdiv_eq_ediv h0.le (by norm_num)]
      rfl
    have htt : TTL s now k = (e - now) / nsPerSec := by
      simp only [TTL, hv, he, hcl]
      rw [if_neg (by omega : ¬ ((goSeconds (e - now)).1 ≤ 0)), truncDyadic_eq_floor, ← htd,
        Int.floor_eq_iff]
      exact ⟨hl, hst⟩
    refine ⟨htt, ?_⟩
    rw [htt]
    exact Int.ediv_nonneg h0.le (by norm_num [nsPerSec])
  · obtain ⟨v, hv⟩ := Option.isSome_iff_exists.mp hs
    have hcl : clamp64 (e - now) = e - now := by
      apply clamp64_eq_of_range _ _ hm
      have : (int64Min : Int) < 0 := by norm_num [int64Min]
      omega
    obtain ⟨hp, hl, hu, _⟩ := goSeconds_pos_spec (e - now) h0 hm
    have htd : Int.tdiv (e - now) 1000000000 = (e - now) / nsPerSec := by
      rw [Int.tdiv_eq_ediv h0.le (by norm_num)]
      rfl
    have htt : TTL s now k = ⌊dyQ (goSeconds (e - now))⌋ := by
      simp only [TTL, hv, he, hcl]
      rw [if_neg (by omega : ¬ ((goSeconds (e - now)).1 ≤ 0)), truncDyadic_eq_floor]
    constructor
    · rw [htt, ← htd]
      exact Int.le_floor.mpr hl
    · rw [htt, ← htd]
      have hcast : dyQ (goSeconds (e - now)) ≤ ((Int.tdiv (e - now) 1000000000 + 1 : Int) : ℚ) := by
        push_cast
        linarith [hu]
      calc ⌊dyQ (goSeconds (e - now))⌋
          ≤ ⌊((Int.tdiv (e - now) 1000000000 + 1 : Int) : ℚ)⌋ := Int.floor_le_floor hcast
      _ = Int.tdiv (e - now) 1000000000 + 1 := Int.floor_intCast _

theorem c5_ttl_float_cases_witness :
    TTL (⟨[], []⟩ : KVStore) 0 "k" = -2 ∧
    TTL (⟨[("k", "v")], []⟩ : KVStore) 0 "k" = -1 ∧
    TTL (⟨[("k", "v")], [("k", -3)]⟩ : KVStore) 0 "k" = -2 ∧
    (TTL (⟨[("k", "v")], [("k", 1500000000)]⟩ : KVStore) 0 "k" = 1500000000 / nsPerSec ∧
      0 ≤ TTL (⟨[("k", "v")], [("k", 1500000000)]⟩ : KVStore) 0 "k") ∧
    (16777216999999999 / nsPerSec
        ≤ TTL (⟨[("k", "v")], [("k", 16777216999999999)]⟩ : KVStore) 0 "k" ∧
      TTL (⟨[("k", "v")], [("k", 16777216999999999)]⟩ : KVStore) 0 "k"
        ≤ 16777216999999999 / nsPerSec + 1) :=
  ⟨(c5_ttl_float_cases ⟨[], []⟩ 0 "k").1 (by decide),
   (c5_ttl_float_cases ⟨[("k", "v")], []⟩ 0 "k").2.1 (by decide) (by decide),
   (c5_ttl_float_cases ⟨[("k", "v")], [("k", -3)]⟩ 0 "k").2.2.1 (-3) (by decide) (by decide)
     (by norm_num),
   (c5_ttl_float_cases ⟨[("k", "v")], [("k", 1500000000)]⟩ 0 "k").2.2.2.1 1500000000
     (by decide) (by decide) (by norm_num) (by norm_num [nsPerSec]),
   (c5_ttl_float_cases ⟨[("k", "v")], [("k", 16777216999999999)]⟩ 0 "k").2.2.2.2
     16777216999999999 (by decide) (by decide) (by norm_num) (by norm_num [int64Max])⟩

/-- C6 counterexample: `-9223372037` is a zero-or-negative ttl, yet on a
logically present key `Expire` returns `true` and a strictly later `Get`
still returns the value: `ttl * time.Second` wraps around 64 bits to a
far-future expiry, so no immediate expiration happens. -/
theorem c6_counterexample :
    (-9223372037 : Int) ≤ 0 ∧
    (Expire (⟨[("k", "v")], []⟩ : KVStore) 0 "k" (-9223372037)).2 = true ∧
    (Get (Expire (⟨[("k", "v")], []⟩ : KVStore) 0 "k" (-9223372037)).1 1 "k").2
      = ("v", true) := by
  refine ⟨by norm_num, by decide, by decide⟩

/-- C6 (amended): for ttl values whose nanosecond count does not overflow
`int64`, `Expire` with a zero or negative ttl on a logically present key
returns `true`, a strictly later `Get` reports not-found, and `TTL` on the
state after that `Get` returns `-2`; on a logically absent key `Expire`
returns `false`. -/
theorem c6_expire_nonpositive (s : KVStore) (now now' : Int) (k : String) (ttl : Int)
    (httl : ttl ≤ 0) (hlo : int64Min ≤ ttl * nsPerSec) (hnow : now < now') :
    (∀ v, lookupA s.store k = some v → hasPastExpiry s now k = false →
      (Expire s now k ttl).2 = true ∧
      (Get (Expire s now k ttl).1 now' k).2 = ("", false) ∧
      TTL (Get (Expire s now k ttl).1 now' k).1 now' k = -2) ∧
    (logicallyPresent s now k = false → (Expire s now k ttl).2 = false) := by
  have hup : ttl * nsPerSec ≤ 0 := by
    show ttl * 1000000000 ≤ 0
    omega
  have hw : wrap64 (ttl * nsPerSec) = ttl * nsPerSec :=
    wrap64_eq_of_range _ hlo (le_trans hup (by norm_num [int64Max]))
  have hE : now + wrap64 (ttl * nsPerSec) < now' := by
    rw [hw]
    omega
  constructor
  · intro v hv hpe
    rcases he : lookupA s.expiries k with _ | e
    · have hx : Expire s now k ttl =
          ({ s with expiries := insertA s.expiries k (now + wrap64 (ttl * nsPerSec)) }, true) := by
        simp [Expire, hv, he]
      refine ⟨by rw [hx], ?_, ?_⟩
      · rw [hx]
        simp [Get, checkAndRemoveIfExpired, lookupA_insertA_self, hE]
      · rw [hx]
        simp [Get, checkAndRemoveIfExpired, lookupA_insertA_self, hE, TTL,
          lookupA_eraseA_self]
    · have hne : ¬ e < now := by
        rw [hasPastExpiry, he] at hpe
        exact of_decide_eq_false hpe
      have hx : Expire s now k ttl =
          ({ s with expiries := insertA s.expiries k (now + wrap64 (ttl * nsPerSec)) }, true) := by
        simp [Expire, hv, he, hne]
      refine ⟨by rw [hx], ?_, ?_⟩
      · rw [hx]
        simp [Get, checkAndRemoveIfExpired, lookupA_insertA_self, hE]
      · rw [hx]
        simp [Get, checkAndRemoveIfExpired, lookupA_insertA_self, hE, TTL,
          lookupA_eraseA_self]
  · intro h
    cases hx : lookupA s.store k with
    | none => simp [Expire, hx]
    | some v =>
      have hpe : hasPastExpiry s now k = true := by
        rw [logicallyPresent, hx] at h
        simp at h
        exact h
      obtain ⟨e, he, hlt⟩ : ∃ e, lookupA s.expiries k = some e ∧ e < now := by
        rcases hy : lookupA s.expiries k with _ | e
        · rw [hasPastExpiry, hy] at hpe
          simp at hpe
        · rw [hasPastExpiry, hy] at hpe
          exact ⟨e, rfl, of_decide_eq_true hpe⟩
      simp [Expire, hx, he, hlt]

theorem c6_expire_nonpositive_witness :
    ((Expire (⟨[("k", "v")], []⟩ : KVStore) 0 "k" (-5)).2 = true ∧
     (Get (Expire (⟨[("k", "v")], []⟩ : KVStore) 0 "k" (-5)).1 1 "k").2 = ("", false) ∧
     TTL (Get (Expire (⟨[("k", "v")], []⟩ : KVStore) 0 "k" (-5)).1 1 "k").1 1 "k" = -2) ∧
    (Expire (⟨[], []⟩ : KVStore) 0 "z" (-5)).2 = false :=
  ⟨(c6_expire_nonpositive ⟨[("k", "v")], []⟩ 0 1 "k" (-5) (by norm_num)
      (by norm_num [int64Min, nsPerSec]) (by norm_num)).1 "v" (by decide) (by decide),
   (c6_expire_nonpositive ⟨[], []⟩ 0 1 "z" (-5) (by norm_num)
      (by norm_num [int64Min, nsPerSec]) (by norm_num)).2 (by decide)⟩

/-- A past expiry recorded on `key` yields a concrete expired instant. -/
theorem hasPastExpiry_exists (s : KVStore) (now : Int) (key : String)
    (h : hasPastExpiry s now key = true) :
    ∃ e, lookupA s.expiries key = some e ∧ e < now := by
  rcases hy : lookupA s.expiries key with _ | e
  · rw [hasPastExpiry, hy] at h
    simp at h
  · rw [hasPastExpiry, hy] at h
    exact ⟨e, rfl, of_decide_eq_true h⟩

/-- C7: on a logically present key, `Expire(k, 100)` then `Persist(k)` (within
the 100-second window) returns `true`, after which `TTL(k)` is `-1` and
`Get(k)` still returns the stored value; `Persist` returns `false` on a
logically absent key and on a key with no expiration to remove. -/
theorem c7_expire_persist (s : KVStore) (now1 now2 now3 now4 : Int) (k : String) :
    (∀ v, lookupA s.store k = some v → hasPastExpiry s now1 k = false →
      now2 ≤ now1 + 100 * nsPerSec →
      (Expire s now1 k 100).2 = true ∧
      (Persist (Expire s now1 k 100).1 now2 k).2 = true ∧
      TTL (Persist (Expire s now1 k 100).1 now2 k).1 now3 k = -1 ∧
      (Get (Persist (Expire s now1 k 100).1 now2 k).1 now4 k).2 = (v, true)) ∧
    (logicallyPresent s now2 k = false → (Persist s now2 k).2 = false) ∧
    (lookupA s.expiries k = none → (Persist s now2 k).2 = false) := by
  have hw : wrap64 (100 * nsPerSec) = 100 * nsPerSec := by decide
  refine ⟨fun v hv hpe h2 => ?_, fun h => ?_, fun he => ?_⟩
  · have hne2 : ¬ (now1 + wrap64 (100 * nsPerSec) < now2) := by
      rw [hw]
      omega
    have hx : Expire s now1 k 100 =
        ({ s with expiries := insertA s.expiries k (now1 + wrap64 (100 * nsPerSec)) }, true) := by
      rcases he : lookupA s.expiries k with _ | e
      · simp [Expire, hv, he]
      · have hne : ¬ e < now1 := by
          rw [hasPastExpiry, he] at hpe
          exact of_decide_eq_false hpe
        simp [Expire, hv, he, hne]
    have hp : ∀ E : Int, ¬ (E < now2) →
        Persist ({ s with expiries := insertA s.expiries k E } : KVStore) now2 k =
          ({ s with expiries := eraseA (insertA s.expiries k E) k }, true) := by
      intro E hne
      simp [Persist, hv, lookupA_insertA_self, hne]
    refine ⟨by rw [hx], by rw [hx, hp _ hne2], ?_, ?_⟩
    · rw [hx, hp _ hne2]
      simp [TTL, hv, lookupA_eraseA_self]
    · rw [hx, hp _ hne2]
      simp [Get, checkAndRemoveIfExpired, lookupA_eraseA_self, hv]
  · cases hx : lookupA s.store k with
    | none => simp [Persist, hx]
    | some v =>
      have hpe : hasPastExpiry s now2 k = true := by
        rw [logicallyPresent, hx] at h
        simp at h
        exact h
      obtain ⟨e, he, hlt⟩ := hasPastExpiry_exists s now2 k hpe
      simp [Persist, hx, he, hlt]
  · cases hx : lookupA s.store k with
    | none => simp [Persist, hx]
    | some v => simp [Persist, hx, he]

theorem c7_expire_persist_witness :
    ((Expire (⟨[("k", "v")], []⟩ : KVStore) 0 "k" 100).2 = true ∧
     (Persist (Expire (⟨[("k", "v")], []⟩ : KVStore) 0 "k" 100).1 1 "k").2 = true ∧
     TTL (Persist (Expire (⟨[("k", "v")], []⟩ : KVStore) 0 "k" 100).1 1 "k").1 2 "k" = -1 ∧
     (Get (Persist (Expire (⟨[("k", "v")], []⟩ : KVStore) 0 "k" 100).1 1 "k").1 3 "k").2
       = ("v", true)) ∧
    (Persist (⟨[], []⟩ : KVStore) 1 "k").2 = false ∧
    (Persist (⟨[("a", "b")], []⟩ : KVStore) 1 "a").2 = false :=
  ⟨(c7_expire_persist ⟨[("k", "v")], []⟩ 0 1 2 3 "k").1 "v" (by decide) (by decide)
     (by norm_num [nsPerSec]),
   (c7_expire_persist ⟨[], []⟩ 0 1 2 3 "k").2.1 (by decide),
   (c7_expire_persist ⟨[("a", "b")], []⟩ 0 1 2 3 "a").2.2 (by decide)⟩

/-- C8 counterexample: `"a"` is expired at the time of the scan, yet after
`Keys` runs it is still present in both maps — `Keys` filters but never
evicts. -/
theorem c8_counterexample :
    hasPastExpiry (⟨[("a", "1")], [("a", -5)]⟩ : KVStore) 0 "a" = true ∧
    (Keys (⟨[("a", "1")], [("a", -5)]⟩ : KVStore) 0).2 = [] ∧
    lookupA (Keys (⟨[("a", "1")], [("a", -5)]⟩ : KVStore) 0).1.store "a" = some "1" ∧
    lookupA (Keys (⟨[("a", "1")], [("a", -5)]⟩ : KVStore) 0).1.expiries "a" = some (-5) :=
  ⟨by decide, by decide, by decide, by decide⟩

/-- C8 (amended): `Keys` returns exactly the logically-present keys (expired
keys are excluded from the result), but it performs no eviction: the state is
returned unchanged. -/
theorem c8_keys_logical (s : KVStore) (now : Int) :
    (Keys s now).1 = s ∧
    ∀ k, k ∈ (Keys s now).2 ↔ logicallyPresent s now k = true := by
  refine ⟨rfl, fun k => ?_⟩
  show k ∈ (s.store.map Prod.fst).filter _ ↔ _
  rw [List.mem_filter, mem_map_fst_iff_lookupA, logicallyPresent]
  rcases he : lookupA s.expiries k with _ | e <;>
    simp [hasPastExpiry, he]

/-- C9 counterexample: the encoder renders the empty value as `$-1` CRLF, not
as a length-prefixed bulk body `$0` CRLF CRLF, so the length-prefixed format
does not hold for every value. -/
theorem c9_counterexample :
    bulkStringToString "" = "$-1" ++ crlf ∧
    bulkStringToString "" ≠ "$" ++ toString ("" : String).utf8ByteSize ++ crlf ++ "" ++ crlf :=
  ⟨by decide, by decide⟩

/-- C9 (amended): every non-empty value is rendered as `$`, the decimal byte
length, CRLF, the value bytes, CRLF; the empty string — the sentinel of the encoder for a missing/nil value, which the GET handler substitutes for a
missing key — is rendered as exactly `$-1` CRLF with no body. -/
theorem c9_bulk_encoding (v : String) (s : KVStore) (now : Int) (key : String) :
    (v ≠ "" → bulkStringToString v = "$" ++ toString v.utf8ByteSize ++ crlf ++ v ++ crlf) ∧
    bulkStringToString "" = "$-1" ++ crlf ∧
    ((Get s now key).2.2 = false → handleGetReply s now key = "$-1" ++ crlf) := by
  refine ⟨fun h => by rw [bulkStringToString, if_neg h], by decide, fun h => ?_⟩
  simp [handleGetReply, h, bulkStringToString, crlf]

theorem c9_bulk_encoding_witness :
    bulkStringToString "bar"
      = "$" ++ toString ("bar" : String).utf8ByteSize ++ crlf ++ "bar" ++ crlf ∧
    handleGetReply (⟨[], []⟩ : KVStore) 0 "missing" = "$-1" ++ crlf :=
  ⟨(c9_bulk_encoding "bar" ⟨[], []⟩ 0 "missing").1 (by decide),
   (c9_bulk_encoding "bar" ⟨[], []⟩ 0 "missing").2.2 (by decide)⟩

/-- C10: `Expire` on a key present in the values map whose recorded expiry is
already past deletes the key from both maps and returns `false`, installing no
new expiration. -/
theorem c10_expire_on_expired (s : KVStore) (now : Int) (k : String) (ttl : Int)
    (v : String) (e : Int) (hv : lookupA s.store k = some v)
    (he : lookupA s.expiries k = some e) (hlt : e < now) :
    Expire s now k ttl = (⟨eraseA s.store k, eraseA s.expiries k⟩, false) ∧
    lookupA (Expire s now k ttl).1.store k = none ∧
    lookupA (Expire s now k ttl).1.expiries k = none := by
  have hx : Expire s now k ttl = (⟨eraseA s.store k, eraseA s.expiries k⟩, false) := by
    simp [Expire, hv, he, hlt]
  exact ⟨hx, by rw [hx]; exact lookupA_eraseA_self _ _,
    by rw [hx]; exact lookupA_eraseA_self _ _⟩

theorem c10_expire_on_expired_witness :
    Expire (⟨[("k", "v")], [("k", -1)]⟩ : KVStore) 0 "k" 50
      = (⟨eraseA [("k", "v")] "k", eraseA [("k", -1)] "k"⟩, false) ∧
    lookupA (Expire (⟨[("k", "v")], [("k", -1)]⟩ : KVStore) 0 "k" 50).1.store "k" = none ∧
    lookupA (Expire (⟨[("k", "v")], [("k", -1)]⟩ : KVStore) 0 "k" 50).1.expiries "k" = none :=
  c10_expire_on_expired ⟨[("k", "v")], [("k", -1)]⟩ 0 "k" 50 "v" (-1) (by decide)
    (by decide) (by norm_num)

end Redig
